import Mathlib

/-
Verification development for the ULAB marks-management system.

The mark-scaling engine (four scaling methods plus a rounding pass) and the
`Student`/`Exam` record types are modelled here; the CSV/JSON storage helpers
are translated from `src/app/utils/storage.ts`.  Mark values are modelled as
rationals (the implementation uses IEEE doubles); the JavaScript square-root
and number-to-string primitives are abstracted as function parameters.
-/

/-- Modelled from the spec: the four interchangeable scaling-method tags
(`types.ts` is not among the sources). -/
inductive ScalingMethod where
  | bellCurve
  | linearNormalization
  | minMaxNormalization
  | percentile
deriving DecidableEq

/-- Modelled from the spec: an exam record with identifier, display name,
`totalMarks` (raw ceiling), `scalingValue` (target ceiling) and the optional
method tag last applied (`types.ts` is not among the sources). -/
structure Exam where
  id : String
  name : String
  totalMarks : ℚ
  scalingValue : ℚ
  scalingMethod : Option ScalingMethod
deriving DecidableEq

/-- Modelled from the spec: a student record with three sparse per-exam mark
maps, modelled as association lists keyed by exam id; `scaledMarks` and
`roundedMarks` are optional objects in the TypeScript type, so an absent map is
`none` (`types.ts` is not among the sources). -/
structure Student where
  id : String
  name : String
  marks : List (String × ℚ)
  scaledMarks : Option (List (String × ℚ))
  roundedMarks : Option (List (String × ℚ))
deriving DecidableEq

/-- Modelled from the spec: the roster record persisted and exported by the
application (`students` plus `exams`). -/
structure MarksData where
  students : List Student
  exams : List Exam
deriving DecidableEq

/-- Property read `map[key]` on a sparse JavaScript object modelled as an
association list: the value at the first matching key, `none` when absent. -/
def lookupM (m : List (String × ℚ)) (k : String) : Option ℚ :=
  (m.find? (fun p => p.1 == k)).map (fun p => p.2)

/-- Property write `{ ...map, [key]: v }`: overwrite the existing binding for
`k` when present, otherwise append a new one. -/
def setEntry (m : List (String × ℚ)) (k : String) (v : ℚ) : List (String × ℚ) :=
  if m.any (fun p => p.1 == k) then
    m.map (fun p => if p.1 == k then (k, v) else p)
  else
    m ++ [(k, v)]

/-- Optional-chaining read `obj?.[key]` on an optional mark map. -/
def olookup (o : Option (List (String × ℚ))) (k : String) : Option ℚ :=
  o.bind (fun m => lookupM m k)

/-- Raw marks of the cohort S: the students holding a raw mark for `examId`,
in roster order. -/
def rawsFor (students : List Student) (examId : String) : List ℚ :=
  students.filterMap (fun s => lookupM s.marks examId)

/-- Write a scaled mark for one exam on one student, keeping every other
field and every other exam's entries: `{ ...s, scaledMarks: { ...s.scaledMarks,
[examId]: v } }`. -/
def setScaled (s : Student) (examId : String) (v : ℚ) : Student :=
  ⟨s.id, s.name, s.marks, some (setEntry (s.scaledMarks.getD []) examId v),
    s.roundedMarks⟩

/-- Modelled from the spec: the per-student pass shared by all four scaling
methods — every student with a raw mark for `examId` receives a new
`scaledMarks[examId]` value computed by `f`, every other student is returned
unchanged. -/
def applyWith (f : ℚ → ℚ) (students : List Student) (examId : String) :
    List Student :=
  students.map (fun s =>
    match lookupM s.marks examId with
    | none => s
    | some raw => setScaled s examId (f raw))

/-- Minimum of a list of raw marks (`0` for the empty list, which the engine
never queries). -/
def minRaw : List ℚ → ℚ
  | [] => 0
  | r :: rs => rs.foldl min r

/-- Maximum of a list of raw marks (`0` for the empty list, which the engine
never queries). -/
def maxRaw : List ℚ → ℚ
  | [] => 0
  | r :: rs => rs.foldl max r

/-- Modelled from the spec: the mean μ of the cohort's raw marks. -/
def meanRaw (raws : List ℚ) : ℚ :=
  raws.sum / (raws.length : ℚ)

/-- Modelled from the spec: the population variance σ² of the cohort's raw
marks (σ is its square root, abstracted as a parameter below). -/
def varianceRaw (raws : List ℚ) : ℚ :=
  ((raws.map (fun x => (x - meanRaw raws) * (x - meanRaw raws))).sum) /
    (raws.length : ℚ)

/-- Modelled from the spec: the cohort's raw marks in descending sort order. -/
def sortedDesc (raws : List ℚ) : List ℚ :=
  List.insertionSort (· ≥ ·) raws

/-- Position of the first occurrence of `v` in a list (JavaScript
`indexOf`). -/
def firstIdx (v : ℚ) : List ℚ → Nat
  | [] => 0
  | x :: xs => if x = v then 0 else firstIdx v xs + 1

/-- Modelled from the spec: a student's rank, the 0-based position of the
first occurrence of the student's raw mark in descending sort order (tied
students share the rank of the first occurrence). -/
def rankOf (raws : List ℚ) (raw : ℚ) : Nat :=
  firstIdx raw (sortedDesc raws)

/-- Modelled from the spec: the engine's error taxonomy surfaced to the
caller (`ConfigurationError` for exam fields that make a method
mathematically undefined). -/
inductive ScalingError where
  | ConfigurationError
deriving DecidableEq

/-- Modelled from the spec: bell-curve scaling.  With μ the mean and σ the
population standard deviation of the cohort's raw marks, every student in the
cohort receives `scalingValue/2 + z·scalingValue/6` where `z = (raw − μ)/σ`,
and `z` is defined as `0` when `σ = 0`.  With no eligible students the roster
is returned unchanged.  The square-root primitive is abstracted as `sqrt`. -/
def applyBellCurveScaling (sqrt : ℚ → ℚ) (students : List Student)
    (exam : Exam) : List Student :=
  let raws := rawsFor students exam.id
  if raws.isEmpty then students
  else
    applyWith (fun raw =>
      exam.scalingValue / 2 +
        (if sqrt (varianceRaw raws) = 0 then 0
         else (raw - meanRaw raws) / sqrt (varianceRaw raws)) *
          (exam.scalingValue / 6))
      students exam.id

/-- Modelled from the spec: linear normalization,
`scaled = (raw / totalMarks) · scalingValue`; when `totalMarks = 0` the engine
fails with a `ConfigurationError` instead of dividing by zero, performing no
update. -/
def applyLinearNormalization (students : List Student) (exam : Exam) :
    Except ScalingError (List Student) :=
  if exam.totalMarks = 0 then
    Except.error ScalingError.ConfigurationError
  else
    Except.ok (applyWith (fun raw => raw / exam.totalMarks * exam.scalingValue)
      students exam.id)

/-- Modelled from the spec: min-max normalization,
`scaled = ((raw − min) / (max − min)) · scalingValue` over the cohort's
minimum and maximum raw marks; when `max = min` every cohort member receives
`scalingValue`.  With no eligible students the roster is returned
unchanged. -/
def applyMinMaxNormalization (students : List Student) (exam : Exam) :
    List Student :=
  let raws := rawsFor students exam.id
  if raws.isEmpty then students
  else
    let mn := minRaw raws
    let mx := maxRaw raws
    if mx = mn then applyWith (fun _ => exam.scalingValue) students exam.id
    else
      applyWith (fun raw => (raw - mn) / (mx - mn) * exam.scalingValue)
        students exam.id

/-- Modelled from the spec: percentile scaling.  Students are ranked by raw
mark in descending order (highest raw = rank 0, ties share the first
occurrence's rank); following the spec's worked example and stated property
(the highest raw mark maps to `scalingValue`, rank `n−1` maps to `0`), a
student of rank `r` receives `((n − 1 − r) / (n − 1)) · scalingValue`.  A
cohort of one receives `scalingValue`; with no eligible students the roster is
returned unchanged. -/
def applyPercentileScaling (students : List Student) (exam : Exam) :
    List Student :=
  let raws := rawsFor students exam.id
  if raws.isEmpty then students
  else if raws.length = 1 then
    applyWith (fun _ => exam.scalingValue) students exam.id
  else
    applyWith (fun raw =>
      ((raws.length : ℚ) - 1 - (rankOf raws raw : ℚ)) /
        ((raws.length : ℚ) - 1) * exam.scalingValue)
      students exam.id

/-- Modelled from the spec: round half away from zero
(`12.4 → 12`, `12.5 → 13`, `12.6 → 13`, `-0.5 → -1`). -/
def roundHalfAway (q : ℚ) : ℤ :=
  if 0 ≤ q then ⌊q + 1 / 2⌋ else -⌊-q + 1 / 2⌋

/-- Modelled from the spec: the rounding pass.  Every student with a scaled
mark for `examId` receives `roundedMarks[examId]` equal to the scaled mark
rounded half away from zero; students without one are returned unchanged.
The `useScaledSource` flag always selects the scaled value in the one call
path the application exercises, so it is kept as a fixed behavior. -/
def applyRounding (students : List Student) (examId : String)
    (useScaledSource : Bool) : List Student :=
  students.map (fun s =>
    match olookup s.scaledMarks examId with
    | none => s
    | some v =>
        ⟨s.id, s.name, s.marks, s.scaledMarks,
          some (setEntry (s.roundedMarks.getD []) examId
            ((roundHalfAway v : ℤ) : ℚ))⟩)

/-- Single-quote character (code point 39). -/
def squote : Char := Char.ofNat 39

/-- Whitespace recognized by JavaScript `String.prototype.trim`: the
ECMA-262 WhiteSpace characters (tab U+0009, vertical tab U+000B, form feed
U+000C, space U+0020, no-break space U+00A0, zero-width no-break space
U+FEFF, and the Unicode Zs class: U+1680, U+2000–U+200A, U+202F, U+205F,
U+3000) together with the LineTerminator characters (line feed U+000A,
carriage return U+000D, line separator U+2028, paragraph separator
U+2029). -/
def isJsSpace (c : Char) : Bool :=
  let n := c.toNat
  n == 0x9 || n == 0xA || n == 0xB || n == 0xC || n == 0xD || n == 0x20 ||
    n == 0xA0 || n == 0x1680 ||
    (decide (0x2000 ≤ n) && decide (n ≤ 0x200A)) ||
    n == 0x2028 || n == 0x2029 || n == 0x202F || n == 0x205F ||
    n == 0x3000 || n == 0xFEFF

/-- Leading and trailing whitespace removed from a character list. -/
def trimChars (l : List Char) : List Char :=
  ((l.dropWhile isJsSpace).reverse.dropWhile isJsSpace).reverse

/-- JavaScript `String.prototype.trim`. -/
def jsTrim (s : String) : String :=
  ⟨trimChars s.data⟩

/-- Split of a character list at every occurrence of `c` (JavaScript
`split` with a single-character separator: no match yields one piece, a
trailing separator yields a trailing empty piece). -/
def splitOnCharList (c : Char) : List Char → List (List Char)
  | [] => [[]]
  | x :: xs =>
      match splitOnCharList c xs with
      | [] => [[]]
      | h :: t => if x = c then [] :: h :: t else (x :: h) :: t

/-- JavaScript `String.prototype.split` with a single-character separator. -/
def jsSplit (s : String) (c : Char) : List String :=
  (splitOnCharList c s.data).map (fun l => ⟨l⟩)

/-- Translation of `part.replace(/^["']|["']$/g, '')` from `parseCSV` in
`src/app/utils/storage.ts`: one leading quote character (double or single) is
removed if present, then one trailing quote character of the remainder. -/
def stripQuotes (s : String) : String :=
  let l1 :=
    match s.data with
    | [] => []
    | c :: rest => if c = '"' ∨ c = squote then rest else c :: rest
  match l1.getLast? with
  | some c => if c = '"' ∨ c = squote then ⟨l1.dropLast⟩ else ⟨l1⟩
  | none => ⟨l1⟩

/-- Per-line body of the `parseCSV` loop in `src/app/utils/storage.ts`: trim
the line, skip it when blank, split on commas, trim and quote-strip each part,
and accept the first two parts as id and name when both are non-empty. -/
def parseLine (line0 : String) : Option Student :=
  let line := jsTrim line0
  if line = "" then none
  else
    match (jsSplit line ',').map (fun p => stripQuotes (jsTrim p)) with
    | id :: nm :: _ =>
        if id ≠ "" ∧ nm ≠ "" then some ⟨id, nm, [], none, none⟩ else none
    | _ => none

/-- Push of one parsed line onto the accumulated student list (the
`students.push(...)` of the `parseCSV` loop; a skipped line leaves the list
unchanged). -/
def pushParsed (students : List Student) (line : String) : List Student :=
  match parseLine line with
  | some st => students ++ [st]
  | none => students

/-- Translation of `parseCSV` from `src/app/utils/storage.ts`: the input is
trimmed, split into lines, and each accepted line pushes one student. -/
def parseCSV (csvText : String) : List Student :=
  (jsSplit (jsTrim csvText) '\n').foldl pushParsed []

/-- Translation of `loadFromLocalStorage` from `src/app/utils/storage.ts`.
The browser environment is abstracted: `windowDefined` models
`typeof window !== 'undefined'`, `stored` the value under the storage key
(`none` when absent), and `parse` the JavaScript `JSON.parse`, whose thrown
exception is an `Except.error`; the `try`/`catch` turns it into `none`.  An
empty stored string is falsy, so it also yields `none`. -/
def loadFromLocalStorage (windowDefined : Bool)
    (parse : String → Except String MarksData) (stored : Option String) :
    Option MarksData :=
  if windowDefined then
    match stored with
    | some s =>
        if s = "" then none
        else
          match parse s with
          | Except.ok v => some v
          | Except.error _ => none
    | none => none
  else none

/-- Translation of the export payload built by `exportToJSON` in
`src/app/utils/storage.ts`: each student is serialized with `scaledMarks` and
`roundedMarks` removed (`{ scaledMarks, roundedMarks, ...student }` rest
destructuring), an absent property being `none` here; the blob/anchor
download plumbing around `JSON.stringify` is not modelled. -/
def exportToJSON (data : MarksData) : MarksData :=
  ⟨data.students.map (fun s => ⟨s.id, s.name, s.marks, none, none⟩),
    data.exams⟩

/-- Rendering of one CSV cell: the stored number when defined, the empty
string otherwise (template literals in `generateCSV`). -/
def csvCell (render : ℚ → String) : Option ℚ → String
  | some q => render q
  | none => ""

/-- Row of one student in `generateCSV` from `src/app/utils/storage.ts`: id,
name, then a raw/scaled/rounded cell triple per exam.  The JavaScript
number-to-string conversion is abstracted as `render`. -/
def studentRow (render : ℚ → String) (exams : List Exam) (s : Student) :
    String :=
  exams.foldl
    (fun acc e =>
      acc ++ "," ++ csvCell render (lookupM s.marks e.id)
        ++ "," ++ csvCell render (olookup s.scaledMarks e.id)
        ++ "," ++ csvCell render (olookup s.roundedMarks e.id))
    (s.id ++ "," ++ s.name)

/-- Cell triple appended to a student's row for one exam (the body of the
inner `forEach` of `generateCSV`). -/
def rowChunk (render : ℚ → String) (s : Student) (e : Exam) : String :=
  "," ++ csvCell render (lookupM s.marks e.id)
    ++ "," ++ csvCell render (olookup s.scaledMarks e.id)
    ++ "," ++ csvCell render (olookup s.roundedMarks e.id)

/-- Header row of `generateCSV`: a `(Raw)`/`(Scaled)`/`(Rounded)` column
triple per exam. -/
def csvHeader (exams : List Exam) : String :=
  exams.foldl
    (fun acc e =>
      acc ++ "," ++ e.name ++ " (Raw)," ++ e.name ++ " (Scaled),"
        ++ e.name ++ " (Rounded)")
    "Student ID,Student Name"

/-- Translation of `generateCSV` from `src/app/utils/storage.ts`: the header
row followed by one row per student, each terminated by a newline. -/
def generateCSV (render : ℚ → String) (students : List Student)
    (exams : List Exam) : String :=
  students.foldl (fun acc s => acc ++ studentRow render exams s ++ "\n")
    (csvHeader exams ++ "\n")

/-- Substring containment between strings, as containment of character
lists. -/
def strSub (a b : String) : Prop :=
  a.data <:+: b.data

/-- Frame conditions of one engine pass for exam `examId`: the roster keeps
its length, every student keeps id, name, raw marks and rounded marks, every
scaled entry keyed by a different exam is untouched, and a student without a
raw mark for `examId` is returned unchanged. -/
def FramePreserved (students result : List Student) (examId : String) : Prop :=
  result.length = students.length ∧
  ∀ (i : Nat) (s : Student), students[i]? = some s →
    ∃ s', result[i]? = some s' ∧
      s'.id = s.id ∧ s'.name = s.name ∧ s'.marks = s.marks ∧
      s'.roundedMarks = s.roundedMarks ∧
      (∀ b, b ≠ examId → olookup s'.scaledMarks b = olookup s.scaledMarks b) ∧
      (lookupM s.marks examId = none → s' = s)

/-- Example roster from the spec's worked scenario: raw marks 80, 60, 100 for
exam `E1`. -/
def studentsA : List Student :=
  [⟨"S1", "Alice", [("E1", 80)], none, none⟩,
   ⟨"S2", "Bob", [("E1", 60)], none, none⟩,
   ⟨"S3", "Carol", [("E1", 100)], none, none⟩]

/-- Example exam from the spec's worked scenario: `totalMarks = 100`,
`scalingValue = 50`. -/
def examA : Exam := ⟨"E1", "Midterm", 100, 50, none⟩

/-- Example roster in which every eligible student holds the same raw
mark. -/
def studentsB : List Student :=
  [⟨"S1", "Ann", [("E1", 50)], none, none⟩,
   ⟨"S2", "Ben", [("E1", 50)], none, none⟩]

/-- Example exam with `scalingValue = 60`. -/
def examB : Exam := ⟨"E1", "Quiz", 100, 60, none⟩

/-- Square-root stand-in that is identically zero; it satisfies the only
equation (`sqrt 0 = 0`) the σ = 0 theorems require. -/
def sqrtZ : ℚ → ℚ := fun _ => 0

/-- Example roster with a tied lowest raw mark (100, 50, 50). -/
def studentsC : List Student :=
  [⟨"S1", "Ada", [("E1", 100)], none, none⟩,
   ⟨"S2", "Eve", [("E1", 50)], none, none⟩,
   ⟨"S3", "Kim", [("E1", 50)], none, none⟩]

/-- Example roster holding scaled marks: one student with a scaled mark of 7
for exam `E1`, one without any. -/
def studentsD : List Student :=
  [⟨"S1", "Joy", [("E1", 80)], some [("E1", 7)], none⟩,
   ⟨"S2", "Sam", [], none, none⟩]

/-- Example saved roster holding scaled and rounded marks for exam `E1`. -/
def dataE : MarksData :=
  ⟨[⟨"S1", "Ivy", [("E1", 80)], some [("E1", 40)], some [("E1", 40)]⟩],
    [examA]⟩

/-- Example number renderer for CSV witnesses. -/
def renderX : ℚ → String := fun _ => "#"

/-- Example CSV import text: one valid line, a blank line, a line with a
single field, and a quoted valid line. -/
def csvT0 : String := "S1, Alice\n\nmalformed\n'S2',\"Bea\",extra"

/-- Example JSON parser stand-in: accepts exactly one string. -/
def parseJ : String → Except String MarksData :=
  fun s => if s = "good" then Except.ok ⟨[], [examA]⟩ else Except.error "bad"

theorem lookupM_nil (k : String) : lookupM [] k = none := rfl

theorem lookupM_cons (p : String × ℚ) (t : List (String × ℚ)) (k : String) :
    lookupM (p :: t) k = if p.1 = k then some p.2 else lookupM t k := by
  by_cases h : p.1 = k
  · simp [lookupM, List.find?_cons, h]
  · simp [lookupM, List.find?_cons, h]

theorem lookupM_map_upd_of_any (k : String) (v : ℚ) :
    ∀ m : List (String × ℚ), m.any (fun p => p.1 == k) = true →
      lookupM (m.map (fun p => if p.1 == k then (k, v) else p)) k = some v := by
  intro m
  induction m with
  | nil => simp
  | cons p t ih =>
      intro h
      by_cases hp : p.1 = k
      · simp [lookupM_cons, hp]
      · have hp' : (p.1 == k) = false := by simp [hp]
        have ht : t.any (fun p => p.1 == k) = true := by
          simpa [List.any_cons, hp'] using h
        simpa [lookupM_cons, hp', hp] using ih ht

theorem lookupM_append_single_of_not_any (k : String) (v : ℚ) :
    ∀ m : List (String × ℚ), ¬m.any (fun p => p.1 == k) = true →
      lookupM (m ++ [(k, v)]) k = some v := by
  intro m
  induction m with
  | nil => simp [lookupM_cons]
  | cons p t ih =>
      intro h
      simp only [List.any_cons, Bool.or_eq_true, not_or] at h
      have hp : p.1 ≠ k := by simpa using h.1
      simpa [lookupM_cons, hp] using ih h.2

theorem lookupM_setEntry_self (m : List (String × ℚ)) (k : String) (v : ℚ) :
    lookupM (setEntry m k v) k = some v := by
  unfold setEntry
  by_cases h : m.any (fun p => p.1 == k) = true
  · rw [if_pos h]
    exact lookupM_map_upd_of_any k v m h
  · rw [if_neg h]
    exact lookupM_append_single_of_not_any k v m h

theorem lookupM_map_upd_ne (k b : String) (v : ℚ) (hbk : b ≠ k) :
    ∀ m : List (String × ℚ),
      lookupM (m.map (fun p => if p.1 == k then (k, v) else p)) b =
        lookupM m b := by
  intro m
  induction m with
  | nil => simp
  | cons p t ih =>
      by_cases hp : p.1 = k
      · have hkb : k ≠ b := fun hc => hbk hc.symm
        have hpb : p.1 ≠ b := by
          rw [hp]
          exact hkb
        simpa [lookupM_cons, hp, hkb, hpb] using ih
      · by_cases hpb : p.1 = b
        · simp [lookupM_cons, hp, hpb, hbk]
        · simpa [lookupM_cons, hp, hpb] using ih

theorem lookupM_append_single_ne (k b : String) (v : ℚ) (hbk : b ≠ k) :
    ∀ m : List (String × ℚ), lookupM (m ++ [(k, v)]) b = lookupM m b := by
  intro m
  induction m with
  | nil =>
      have hkb : k ≠ b := fun hc => hbk hc.symm
      simp [lookupM_cons, hkb]
  | cons p t ih =>
      by_cases hpb : p.1 = b
      · simp [lookupM_cons, hpb]
      · simp [lookupM_cons, hpb, ih]

theorem lookupM_setEntry_ne (m : List (String × ℚ)) (k b : String) (v : ℚ)
    (hbk : b ≠ k) : lookupM (setEntry m k v) b = lookupM m b := by
  unfold setEntry
  by_cases h : m.any (fun p => p.1 == k) = true
  · rw [if_pos h]
    exact lookupM_map_upd_ne k b v hbk m
  · rw [if_neg h]
    exact lookupM_append_single_ne k b v hbk m

theorem olookup_setScaled_self (s : Student) (k : String) (v : ℚ) :
    olookup (setScaled s k v).scaledMarks k = some v := by
  simp [setScaled, olookup, lookupM_setEntry_self]

theorem olookup_setScaled_ne (s : Student) (k b : String) (v : ℚ)
    (hbk : b ≠ k) :
    olookup (setScaled s k v).scaledMarks b = olookup s.scaledMarks b := by
  cases hsm : s.scaledMarks with
  | none =>
      simp [setScaled, olookup, hsm, lookupM_setEntry_ne _ _ _ _ hbk,
        lookupM_nil]
  | some m => simp [setScaled, olookup, hsm, lookupM_setEntry_ne _ _ _ _ hbk]

theorem applyWith_length (f : ℚ → ℚ) (students : List Student)
    (examId : String) : (applyWith f students examId).length = students.length :=
  List.length_map students _

theorem applyWith_eligible (f : ℚ → ℚ) (students : List Student)
    (examId : String) (i : Nat) (s : Student) (raw : ℚ)
    (hi : students[i]? = some s) (hraw : lookupM s.marks examId = some raw) :
    (applyWith f students examId)[i]? = some (setScaled s examId (f raw)) := by
  unfold applyWith
  rw [List.getElem?_map, hi]
  simp [hraw]

theorem applyWith_skip (f : ℚ → ℚ) (students : List Student) (examId : String)
    (i : Nat) (s : Student) (hi : students[i]? = some s)
    (hraw : lookupM s.marks examId = none) :
    (applyWith f students examId)[i]? = some s := by
  unfold applyWith
  rw [List.getElem?_map, hi]
  simp [hraw]

theorem framePreserved_refl (students : List Student) (examId : String) :
    FramePreserved students students examId := by
  refine ⟨rfl, fun i s hi => ⟨s, hi, rfl, rfl, rfl, rfl, fun b _ => rfl,
    fun _ => rfl⟩⟩

theorem framePreserved_applyWith (f : ℚ → ℚ) (students : List Student)
    (examId : String) :
    FramePreserved students (applyWith f students examId) examId := by
  refine ⟨applyWith_length f students examId, fun i s hi => ?_⟩
  cases hraw : lookupM s.marks examId with
  | none =>
      exact ⟨s, applyWith_skip f students examId i s hi hraw, rfl, rfl, rfl,
        rfl, fun b _ => rfl, fun _ => rfl⟩
  | some raw =>
      refine ⟨setScaled s examId (f raw),
        applyWith_eligible f students examId i s raw hi hraw, rfl, rfl, rfl,
        rfl, fun b hb => olookup_setScaled_ne s examId b (f raw) hb,
        fun hnone => ?_⟩
      exact Option.noConfusion hnone

theorem mem_rawsFor (students : List Student) (examId : String) (i : Nat)
    (s : Student) (raw : ℚ) (hi : students[i]? = some s)
    (hraw : lookupM s.marks examId = some raw) :
    raw ∈ rawsFor students examId := by
  have hsmem : s ∈ students := by
    rcases List.getElem?_eq_some_iff.mp hi with ⟨h, heq⟩
    exact heq ▸ List.getElem_mem h
  exact List.mem_filterMap.mpr ⟨s, hsmem, hraw⟩

theorem rawsFor_ne_nil (students : List Student) (examId : String) (i : Nat)
    (s : Student) (raw : ℚ) (hi : students[i]? = some s)
    (hraw : lookupM s.marks examId = some raw) :
    rawsFor students examId ≠ [] := by
  intro hc
  have := mem_rawsFor students examId i s raw hi hraw
  rw [hc] at this
  exact absurd this (List.not_mem_nil raw)

theorem foldl_min_le_init (rs : List ℚ) : ∀ r : ℚ, rs.foldl min r ≤ r := by
  induction rs with
  | nil => exact fun r => le_refl r
  | cons a t ih =>
      intro r
      calc (a :: t).foldl min r = t.foldl min (min r a) := rfl
        _ ≤ min r a := ih (min r a)
        _ ≤ r := min_le_left r a

theorem foldl_min_le_mem (rs : List ℚ) :
    ∀ (r x : ℚ), x ∈ rs → rs.foldl min r ≤ x := by
  induction rs with
  | nil => intro r x hx; exact absurd hx (List.not_mem_nil x)
  | cons a t ih =>
      intro r x hx
      rcases List.mem_cons.mp hx with hxa | hxt
      · calc (a :: t).foldl min r = t.foldl min (min r a) := rfl
          _ ≤ min r a := foldl_min_le_init t (min r a)
          _ ≤ a := min_le_right r a
          _ = x := hxa.symm
      · exact ih (min r a) x hxt

theorem foldl_min_mem (rs : List ℚ) : ∀ r : ℚ, rs.foldl min r ∈ r :: rs := by
  induction rs with
  | nil => intro r; exact List.mem_singleton.mpr rfl
  | cons a t ih =>
      intro r
      have h := ih (min r a)
      rcases List.mem_cons.mp h with h1 | h2
      · rcases min_choice r a with hr | ha
        · exact List.mem_cons.mpr (Or.inl (h1.trans hr))
        · have hfa : (a :: t).foldl min r = a := by
            calc (a :: t).foldl min r = t.foldl min (min r a) := rfl
              _ = min r a := h1
              _ = a := ha
          rw [hfa]
          exact List.mem_cons.mpr (Or.inr (List.mem_cons_self a t))
      · exact List.mem_cons.mpr (Or.inr (List.mem_cons.mpr (Or.inr h2)))

theorem foldl_max_init_le (rs : List ℚ) : ∀ r : ℚ, r ≤ rs.foldl max r := by
  induction rs with
  | nil => exact fun r => le_refl r
  | cons a t ih =>
      intro r
      calc r ≤ max r a := le_max_left r a
        _ ≤ t.foldl max (max r a) := ih (max r a)
        _ = (a :: t).foldl max r := rfl

theorem foldl_max_mem_le (rs : List ℚ) :
    ∀ (r x : ℚ), x ∈ rs → x ≤ rs.foldl max r := by
  induction rs with
  | nil => intro r x hx; exact absurd hx (List.not_mem_nil x)
  | cons a t ih =>
      intro r x hx
      rcases List.mem_cons.mp hx with hxa | hxt
      · calc x = a := hxa
          _ ≤ max r a := le_max_right r a
          _ ≤ t.foldl max (max r a) := foldl_max_init_le t (max r a)
          _ = (a :: t).foldl max r := rfl
      · exact ih (max r a) x hxt

theorem foldl_max_mem (rs : List ℚ) : ∀ r : ℚ, rs.foldl max r ∈ r :: rs := by
  induction rs with
  | nil => intro r; exact List.mem_singleton.mpr rfl
  | cons a t ih =>
      intro r
      have h := ih (max r a)
      rcases List.mem_cons.mp h with h1 | h2
      · rcases max_choice r a with hr | ha
        · exact List.mem_cons.mpr (Or.inl (h1.trans hr))
        · have hfa : (a :: t).foldl max r = a := by
            calc (a :: t).foldl max r = t.foldl max (max r a) := rfl
              _ = max r a := h1
              _ = a := ha
          rw [hfa]
          exact List.mem_cons.mpr (Or.inr (List.mem_cons_self a t))
      · exact List.mem_cons.mpr (Or.inr (List.mem_cons.mpr (Or.inr h2)))

theorem minRaw_le (raws : List ℚ) (x : ℚ) (hx : x ∈ raws) : minRaw raws ≤ x := by
  cases raws with
  | nil => exact absurd hx (List.not_mem_nil x)
  | cons r rs =>
      rcases List.mem_cons.mp hx with h1 | h2
      · rw [h1]
        exact foldl_min_le_init rs r
      · exact foldl_min_le_mem rs r x h2

theorem le_maxRaw (raws : List ℚ) (x : ℚ) (hx : x ∈ raws) : x ≤ maxRaw raws := by
  cases raws with
  | nil => exact absurd hx (List.not_mem_nil x)
  | cons r rs =>
      rcases List.mem_cons.mp hx with h1 | h2
      · rw [h1]
        exact foldl_max_init_le rs r
      · exact foldl_max_mem_le rs r x h2

theorem minRaw_mem (raws : List ℚ) (hne : raws ≠ []) : minRaw raws ∈ raws := by
  cases raws with
  | nil => exact absurd rfl hne
  | cons r rs => exact foldl_min_mem rs r

theorem maxRaw_mem (raws : List ℚ) (hne : raws ≠ []) : maxRaw raws ∈ raws := by
  cases raws with
  | nil => exact absurd rfl hne
  | cons r rs => exact foldl_max_mem rs r

theorem sum_all_eq (l : List ℚ) (c : ℚ) (h : ∀ x ∈ l, x = c) :
    l.sum = c * (l.length : ℚ) := by
  induction l with
  | nil => simp
  | cons a t ih =>
      have ha : a = c := h a (List.mem_cons_self a t)
      have ht : ∀ x ∈ t, x = c := fun x hx => h x (List.mem_cons.mpr (Or.inr hx))
      rw [List.sum_cons, ih ht, ha, List.length_cons]
      push_cast
      ring

theorem length_cast_ne_zero (l : List ℚ) (hne : l ≠ []) :
    ((l.length : ℚ)) ≠ 0 := by
  have h1 : l.length ≠ 0 := fun hc => hne (List.length_eq_zero.mp hc)
  exact_mod_cast h1

theorem meanRaw_all_eq (l : List ℚ) (c : ℚ) (hne : l ≠ [])
    (h : ∀ x ∈ l, x = c) : meanRaw l = c := by
  unfold meanRaw
  rw [sum_all_eq l c h]
  exact mul_div_cancel_right₀ c (length_cast_ne_zero l hne)

theorem varianceRaw_all_eq (l : List ℚ) (c : ℚ) (hne : l ≠ [])
    (h : ∀ x ∈ l, x = c) : varianceRaw l = 0 := by
  unfold varianceRaw
  have hz : ∀ y ∈ l.map (fun x => (x - meanRaw l) * (x - meanRaw l)), y = 0 := by
    intro y hy
    rcases List.mem_map.mp hy with ⟨x, hx, rfl⟩
    rw [h x hx, meanRaw_all_eq l c hne h]
    ring
  rw [List.sum_eq_zero hz, zero_div]

theorem firstIdx_sorted : ∀ l : List ℚ, List.Sorted (· ≥ ·) l →
    ∀ v ∈ l, firstIdx v l = l.countP (fun x => decide (v < x)) := by
  intro l
  induction l with
  | nil => intro _ v hv; cases hv
  | cons a t ih =>
      intro hs v hv
      have hat : ∀ b ∈ t, a ≥ b := List.rel_of_sorted_cons hs
      have hst : List.Sorted (· ≥ ·) t := (List.sorted_cons.mp hs).2
      by_cases hav : a = v
      · have hc1 : ¬v < a := by
          rw [hav]
          exact lt_irrefl v
        have hzero : t.countP (fun x => decide (v < x)) = 0 :=
          List.countP_eq_zero.mpr (fun x hx => by
            simp only [decide_eq_true_eq]
            exact not_lt.mpr (le_of_le_of_eq (hat x hx) hav))
        simp [firstIdx, hav, List.countP_cons, hzero, hc1]
      · have hvt : v ∈ t := by
          rcases List.mem_cons.mp hv with h1 | h2
          · exact absurd h1.symm hav
          · exact h2
        have hva : v < a :=
          lt_of_le_of_ne (hat v hvt) (fun hc => hav hc.symm)
        simp [firstIdx, hav, List.countP_cons, hva, ih hst v hvt]

theorem rankOf_eq_countP (raws : List ℚ) (v : ℚ) (hv : v ∈ raws) :
    rankOf raws v = raws.countP (fun x => decide (v < x)) := by
  unfold rankOf sortedDesc
  have hperm := List.perm_insertionSort (· ≥ ·) raws
  have hsort := List.sorted_insertionSort (· ≥ ·) raws
  rw [firstIdx_sorted _ hsort v (hperm.mem_iff.mpr hv)]
  exact hperm.countP_eq _

theorem rankOf_max (raws : List ℚ) (hne : raws ≠ []) :
    rankOf raws (maxRaw raws) = 0 := by
  rw [rankOf_eq_countP raws _ (maxRaw_mem raws hne)]
  exact List.countP_eq_zero.mpr (fun x hx => by
    simp only [decide_eq_true_eq]
    exact not_lt.mpr (le_maxRaw raws x hx))

theorem rankOf_unique_min (raws : List ℚ) (hne : raws ≠ [])
    (hcnt : raws.countP (fun x => decide (x = minRaw raws)) = 1) :
    rankOf raws (minRaw raws) = raws.length - 1 := by
  rw [rankOf_eq_countP raws _ (minRaw_mem raws hne)]
  have hsplit :=
    List.length_eq_countP_add_countP (fun x => decide (minRaw raws < x)) raws
  have hcompl :
      raws.countP (fun a => decide ¬(decide (minRaw raws < a)) = true) =
        raws.countP (fun x => decide (x = minRaw raws)) := by
    apply List.countP_congr
    intro x hx
    simp only [decide_eq_true_eq, not_lt]
    constructor
    · intro hle
      exact le_antisymm hle (minRaw_le raws x hx)
    · intro he
      exact le_of_eq he
  rw [hcompl, hcnt] at hsplit
  omega

theorem foldl_pushParsed :
    ∀ (lines : List String) (acc : List Student),
      lines.foldl pushParsed acc = acc ++ lines.filterMap parseLine := by
  intro lines
  induction lines with
  | nil => intro acc; simp
  | cons a t ih =>
      intro acc
      cases hga : parseLine a with
      | some st =>
          simp [pushParsed, List.foldl_cons, hga, ih, List.filterMap_cons]
      | none =>
          simp [pushParsed, List.foldl_cons, hga, ih, List.filterMap_cons]

theorem data_foldl_append {α : Type} (g : α → String) :
    ∀ (l : List α) (init : String),
      (l.foldl (fun acc y => acc ++ g y) init).data
        = l.foldl (fun acc y => acc ++ (g y).data) init.data := by
  intro l
  induction l with
  | nil => intro init; rfl
  | cons a t ih => intro init; simp [List.foldl_cons, ih, String.data_append]

theorem prefix_foldl_append {α : Type} (g : α → List Char) :
    ∀ (l : List α) (init : List Char),
      init <+: l.foldl (fun acc y => acc ++ g y) init := by
  intro l
  induction l with
  | nil => intro init; exact List.prefix_rfl
  | cons a t ih =>
      intro init
      exact List.IsPrefix.trans (List.prefix_append init (g a))
        (ih (init ++ g a))

theorem infix_foldl_append {α : Type} (g : α → List Char) :
    ∀ (l : List α) (init : List Char) (x : α), x ∈ l →
      g x <:+: l.foldl (fun acc y => acc ++ g y) init := by
  intro l
  induction l with
  | nil => intro init x hx; cases hx
  | cons a t ih =>
      intro init x hx
      rcases List.mem_cons.mp hx with h1 | h2
      · have h3 : g x <:+: init ++ g a := by
          rw [h1]
          exact (List.suffix_append init (g a)).isInfix
        exact h3.trans (prefix_foldl_append g t (init ++ g a)).isInfix
      · exact ih (init ++ g a) x h2

theorem isEmpty_false_of_ne_nil {l : List ℚ} (h : l ≠ []) :
    ¬l.isEmpty = true := by
  cases l with
  | nil => exact absurd rfl h
  | cons a t => simp

theorem applyBell_eq (sqrt : ℚ → ℚ) (students : List Student) (exam : Exam)
    (hne : rawsFor students exam.id ≠ []) :
    applyBellCurveScaling sqrt students exam =
      applyWith (fun raw =>
        exam.scalingValue / 2 +
          (if sqrt (varianceRaw (rawsFor students exam.id)) = 0 then 0
           else (raw - meanRaw (rawsFor students exam.id)) /
             sqrt (varianceRaw (rawsFor students exam.id))) *
            (exam.scalingValue / 6))
        students exam.id := by
  simp only [applyBellCurveScaling]
  rw [if_neg (isEmpty_false_of_ne_nil hne)]

theorem applyMinMax_eq_const (students : List Student) (exam : Exam)
    (hne : rawsFor students exam.id ≠ [])
    (heq : maxRaw (rawsFor students exam.id) = minRaw (rawsFor students exam.id)) :
    applyMinMaxNormalization students exam =
      applyWith (fun _ => exam.scalingValue) students exam.id := by
  simp only [applyMinMaxNormalization]
  rw [if_neg (isEmpty_false_of_ne_nil hne), if_pos heq]

theorem applyMinMax_eq_formula (students : List Student) (exam : Exam)
    (hne : rawsFor students exam.id ≠ [])
    (hneq :
      maxRaw (rawsFor students exam.id) ≠ minRaw (rawsFor students exam.id)) :
    applyMinMaxNormalization students exam =
      applyWith (fun raw =>
        (raw - minRaw (rawsFor students exam.id)) /
          (maxRaw (rawsFor students exam.id) -
            minRaw (rawsFor students exam.id)) * exam.scalingValue)
        students exam.id := by
  simp only [applyMinMaxNormalization]
  rw [if_neg (isEmpty_false_of_ne_nil hne), if_neg hneq]

theorem applyPercentile_eq_single (students : List Student) (exam : Exam)
    (hne : rawsFor students exam.id ≠ [])
    (hlen : (rawsFor students exam.id).length = 1) :
    applyPercentileScaling students exam =
      applyWith (fun _ => exam.scalingValue) students exam.id := by
  simp only [applyPercentileScaling]
  rw [if_neg (isEmpty_false_of_ne_nil hne), if_pos hlen]

theorem applyPercentile_eq_formula (students : List Student) (exam : Exam)
    (hne : rawsFor students exam.id ≠ [])
    (hlen : (rawsFor students exam.id).length ≠ 1) :
    applyPercentileScaling students exam =
      applyWith (fun raw =>
        (((rawsFor students exam.id).length : ℚ) - 1 -
          (rankOf (rawsFor students exam.id) raw : ℚ)) /
          (((rawsFor students exam.id).length : ℚ) - 1) * exam.scalingValue)
        students exam.id := by
  simp only [applyPercentileScaling]
  rw [if_neg (isEmpty_false_of_ne_nil hne), if_neg hlen]

theorem studentRow_eq_foldl (render : ℚ → String) (exams : List Exam)
    (s : Student) :
    studentRow render exams s =
      exams.foldl (fun acc e => acc ++ rowChunk render s e)
        (s.id ++ "," ++ s.name) := by
  unfold studentRow
  have hstep : (fun (acc : String) (e : Exam) =>
      acc ++ "," ++ csvCell render (lookupM s.marks e.id)
        ++ "," ++ csvCell render (olookup s.scaledMarks e.id)
        ++ "," ++ csvCell render (olookup s.roundedMarks e.id)) =
      (fun acc e => acc ++ rowChunk render s e) := by
    funext acc e
    simp [rowChunk, String.append_assoc]
  rw [hstep]

theorem rowChunk_raw_sub (render : ℚ → String) (s : Student) (e : Exam)
    (v : ℚ) (h : lookupM s.marks e.id = some v) :
    ("," ++ render v).data <:+: (rowChunk render s e).data := by
  refine ⟨[],
    ("," ++ csvCell render (olookup s.scaledMarks e.id)
      ++ "," ++ csvCell render (olookup s.roundedMarks e.id)).data, ?_⟩
  simp [rowChunk, csvCell, h, String.data_append, List.append_assoc]

theorem rowChunk_scaled_sub (render : ℚ → String) (s : Student) (e : Exam)
    (v : ℚ) (h : olookup s.scaledMarks e.id = some v) :
    ("," ++ render v).data <:+: (rowChunk render s e).data := by
  refine ⟨("," ++ csvCell render (lookupM s.marks e.id)).data,
    ("," ++ csvCell render (olookup s.roundedMarks e.id)).data, ?_⟩
  simp [rowChunk, csvCell, h, String.data_append, List.append_assoc]

theorem rowChunk_rounded_sub (render : ℚ → String) (s : Student) (e : Exam)
    (v : ℚ) (h : olookup s.roundedMarks e.id = some v) :
    ("," ++ render v).data <:+: (rowChunk render s e).data := by
  refine ⟨("," ++ csvCell render (lookupM s.marks e.id)
      ++ "," ++ csvCell render (olookup s.scaledMarks e.id)).data, [], ?_⟩
  simp [rowChunk, csvCell, h, String.data_append, List.append_assoc]

theorem chunk_infix_studentRow (render : ℚ → String) (exams : List Exam)
    (s : Student) (e : Exam) (he : e ∈ exams) (part : String)
    (hpart : part.data <:+: (rowChunk render s e).data) :
    part.data <:+: (studentRow render exams s).data := by
  rw [studentRow_eq_foldl, data_foldl_append]
  exact hpart.trans
    (infix_foldl_append (fun e' => (rowChunk render s e').data) exams _ e he)

theorem studentRow_infix_generateCSV (render : ℚ → String)
    (students : List Student) (exams : List Exam) (s : Student)
    (hs : s ∈ students) :
    (studentRow render exams s ++ "\n").data <:+:
      (generateCSV render students exams).data := by
  unfold generateCSV
  rw [show (fun (acc : String) (s' : Student) =>
        acc ++ studentRow render exams s' ++ "\n") =
      (fun (acc : String) (s' : Student) =>
        acc ++ (studentRow render exams s' ++ "\n")) from by
    funext acc s'
    simp [String.append_assoc]]
  rw [data_foldl_append]
  exact infix_foldl_append (fun s' => (studentRow render exams s' ++ "\n").data)
    students _ s hs

theorem cell_infix_generateCSV (render : ℚ → String) (students : List Student)
    (exams : List Exam) (s : Student) (e : Exam) (part : String)
    (hs : s ∈ students) (he : e ∈ exams)
    (hpart : part.data <:+: (rowChunk render s e).data) :
    strSub part (generateCSV render students exams) := by
  unfold strSub
  have h1 := chunk_infix_studentRow render exams s e he part hpart
  have h2 : (studentRow render exams s).data <:+:
      (studentRow render exams s ++ "\n").data := by
    rw [String.data_append]
    exact (List.prefix_append _ _).isInfix
  exact (h1.trans h2).trans
    (studentRow_infix_generateCSV render students exams s hs)

/-- C1: for min-max normalization, with `min`/`max` the extremes of the
cohort's raw marks, every cohort member's scaled mark is
`((raw − min)/(max − min))·scalingValue` when `max ≠ min` — so holders of the
minimum raw mark receive `0` and holders of the maximum receive
`scalingValue` — and every cohort member receives `scalingValue` when
`max = min`. -/
theorem minMaxNormalization_extremes (students : List Student) (exam : Exam)
    (i : Nat) (s : Student) (raw : ℚ)
    (hi : students[i]? = some s)
    (hraw : lookupM s.marks exam.id = some raw) :
    ∃ s', (applyMinMaxNormalization students exam)[i]? = some s' ∧
      (minRaw (rawsFor students exam.id) ≤ raw ∧
        raw ≤ maxRaw (rawsFor students exam.id)) ∧
      (maxRaw (rawsFor students exam.id) ≠ minRaw (rawsFor students exam.id) →
        olookup s'.scaledMarks exam.id =
          some ((raw - minRaw (rawsFor students exam.id)) /
            (maxRaw (rawsFor students exam.id) -
              minRaw (rawsFor students exam.id)) * exam.scalingValue) ∧
        (raw = minRaw (rawsFor students exam.id) →
          olookup s'.scaledMarks exam.id = some 0) ∧
        (raw = maxRaw (rawsFor students exam.id) →
          olookup s'.scaledMarks exam.id = some exam.scalingValue)) ∧
      (maxRaw (rawsFor students exam.id) = minRaw (rawsFor students exam.id) →
        olookup s'.scaledMarks exam.id = some exam.scalingValue) := by
  have hne := rawsFor_ne_nil students exam.id i s raw hi hraw
  have hmem := mem_rawsFor students exam.id i s raw hi hraw
  by_cases hcase :
      maxRaw (rawsFor students exam.id) = minRaw (rawsFor students exam.id)
  · rw [applyMinMax_eq_const students exam hne hcase]
    exact ⟨setScaled s exam.id exam.scalingValue,
      applyWith_eligible _ students exam.id i s raw hi hraw,
      ⟨minRaw_le _ raw hmem, le_maxRaw _ raw hmem⟩,
      fun hc => absurd hcase hc,
      fun _ => olookup_setScaled_self s exam.id exam.scalingValue⟩
  · rw [applyMinMax_eq_formula students exam hne hcase]
    refine ⟨setScaled s exam.id _,
      applyWith_eligible _ students exam.id i s raw hi hraw,
      ⟨minRaw_le _ raw hmem, le_maxRaw _ raw hmem⟩,
      fun _ => ⟨olookup_setScaled_self s exam.id _, fun hmin => ?_,
        fun hmax => ?_⟩,
      fun hc => absurd hc hcase⟩
    · rw [olookup_setScaled_self, hmin]
      norm_num
    · rw [olookup_setScaled_self, hmax,
        div_self (sub_ne_zero.mpr hcase), one_mul]

/-- Witness for C1 at the spec's worked example (raw marks 80, 60, 100 out of
100, scaling value 50). -/
theorem minMaxNormalization_extremes_witness :
    studentsA[0]? = some ⟨"S1", "Alice", [("E1", 80)], none, none⟩ ∧
    lookupM (Student.mk "S1" "Alice" [("E1", 80)] none none).marks examA.id =
      some 80 ∧
    (∃ s', (applyMinMaxNormalization studentsA examA)[0]? = some s' ∧
      (minRaw (rawsFor studentsA examA.id) ≤ 80 ∧
        80 ≤ maxRaw (rawsFor studentsA examA.id)) ∧
      (maxRaw (rawsFor studentsA examA.id) ≠
          minRaw (rawsFor studentsA examA.id) →
        olookup s'.scaledMarks examA.id =
          some ((80 - minRaw (rawsFor studentsA examA.id)) /
            (maxRaw (rawsFor studentsA examA.id) -
              minRaw (rawsFor studentsA examA.id)) * examA.scalingValue) ∧
        (80 = minRaw (rawsFor studentsA examA.id) →
          olookup s'.scaledMarks examA.id = some 0) ∧
        (80 = maxRaw (rawsFor studentsA examA.id) →
          olookup s'.scaledMarks examA.id = some examA.scalingValue)) ∧
      (maxRaw (rawsFor studentsA examA.id) =
          minRaw (rawsFor studentsA examA.id) →
        olookup s'.scaledMarks examA.id = some examA.scalingValue)) :=
  ⟨by decide, by decide,
    minMaxNormalization_extremes studentsA examA 0
      ⟨"S1", "Alice", [("E1", 80)], none, none⟩ 80 (by decide) (by decide)⟩

/-- C3: linear normalization on an exam with `totalMarks = 0` fails with a
`ConfigurationError` and returns no updated roster at all, so the caller's
pre-call roster is untouched (all-or-nothing per invocation). -/
theorem linearNormalization_zero_total (students : List Student) (exam : Exam)
    (h : exam.totalMarks = 0) :
    applyLinearNormalization students exam =
      Except.error ScalingError.ConfigurationError ∧
    ∀ result : List Student,
      applyLinearNormalization students exam ≠ Except.ok result := by
  have he : applyLinearNormalization students exam =
      Except.error ScalingError.ConfigurationError := by
    unfold applyLinearNormalization
    rw [if_pos h]
  refine ⟨he, fun result hc => ?_⟩
  rw [he] at hc
  exact Except.noConfusion hc

/-- Witness for C3 at a concrete exam with `totalMarks = 0`. -/
theorem linearNormalization_zero_total_witness :
    (Exam.mk "E1" "Broken" 0 50 none).totalMarks = 0 ∧
    (applyLinearNormalization studentsA ⟨"E1", "Broken", 0, 50, none⟩ =
      Except.error ScalingError.ConfigurationError ∧
    ∀ result : List Student,
      applyLinearNormalization studentsA ⟨"E1", "Broken", 0, 50, none⟩ ≠
        Except.ok result) :=
  ⟨by decide,
    linearNormalization_zero_total studentsA ⟨"E1", "Broken", 0, 50, none⟩
      (by decide)⟩

/-- C5: linear normalization is a pure scalar multiple: on an exam with
`totalMarks > 0` (and the data model's positive `scalingValue`), the pass
succeeds and dividing each eligible student's produced scaled mark by the
constant `scalingValue / totalMarks` reproduces the raw mark exactly over the
rationals. -/
theorem linearNormalization_roundtrip (students : List Student) (exam : Exam)
    (htm : 0 < exam.totalMarks) (hsv : 0 < exam.scalingValue)
    (i : Nat) (s : Student) (raw : ℚ)
    (hi : students[i]? = some s)
    (hraw : lookupM s.marks exam.id = some raw) :
    ∃ result : List Student,
      applyLinearNormalization students exam = Except.ok result ∧
      ∃ s', result[i]? = some s' ∧
        ∃ v, olookup s'.scaledMarks exam.id = some v ∧
          v / (exam.scalingValue / exam.totalMarks) = raw := by
  have htm' : exam.totalMarks ≠ 0 := ne_of_gt htm
  have hsv' : exam.scalingValue ≠ 0 := ne_of_gt hsv
  refine ⟨applyWith (fun raw => raw / exam.totalMarks * exam.scalingValue)
      students exam.id, ?_,
    setScaled s exam.id (raw / exam.totalMarks * exam.scalingValue),
    applyWith_eligible _ students exam.id i s raw hi hraw,
    raw / exam.totalMarks * exam.scalingValue,
    olookup_setScaled_self s exam.id _, ?_⟩
  · unfold applyLinearNormalization
    rw [if_neg htm']
  · field_simp

/-- Witness for C5 at the spec's worked example: scaled 40 divided by
`50/100` returns raw 80. -/
theorem linearNormalization_roundtrip_witness :
    (0 : ℚ) < examA.totalMarks ∧ (0 : ℚ) < examA.scalingValue ∧
    studentsA[0]? = some ⟨"S1", "Alice", [("E1", 80)], none, none⟩ ∧
    (∃ result : List Student,
      applyLinearNormalization studentsA examA = Except.ok result ∧
      ∃ s', result[0]? = some s' ∧
        ∃ v, olookup s'.scaledMarks examA.id = some v ∧
          v / (examA.scalingValue / examA.totalMarks) = 80) :=
  ⟨by decide, by decide, by decide,
    linearNormalization_roundtrip studentsA examA (by decide) (by decide) 0
      ⟨"S1", "Alice", [("E1", 80)], none, none⟩ 80 (by decide) (by decide)⟩

/-- C2: bell-curve scaling gives every cohort member
`scalingValue/2 + z·scalingValue/6` where `z = (raw − μ)/σ` and `z` is defined
as `0` when `σ = 0`; in particular, when `σ = 0` — as happens whenever all
cohort raw marks are equal — every cohort member receives exactly
`scalingValue/2`. -/
theorem bellCurve_zscore (sqrt : ℚ → ℚ) (students : List Student) (exam : Exam)
    (i : Nat) (s : Student) (raw : ℚ)
    (hi : students[i]? = some s)
    (hraw : lookupM s.marks exam.id = some raw) :
    ∃ s', (applyBellCurveScaling sqrt students exam)[i]? = some s' ∧
      olookup s'.scaledMarks exam.id =
        some (exam.scalingValue / 2 +
          (if sqrt (varianceRaw (rawsFor students exam.id)) = 0 then 0
           else (raw - meanRaw (rawsFor students exam.id)) /
             sqrt (varianceRaw (rawsFor students exam.id))) *
            (exam.scalingValue / 6)) ∧
      (sqrt (varianceRaw (rawsFor students exam.id)) = 0 →
        olookup s'.scaledMarks exam.id = some (exam.scalingValue / 2)) ∧
      (sqrt 0 = 0 → (∀ x ∈ rawsFor students exam.id, x = raw) →
        olookup s'.scaledMarks exam.id = some (exam.scalingValue / 2)) := by
  have hne := rawsFor_ne_nil students exam.id i s raw hi hraw
  rw [applyBell_eq sqrt students exam hne]
  refine ⟨setScaled s exam.id _,
    applyWith_eligible _ students exam.id i s raw hi hraw,
    olookup_setScaled_self s exam.id _, fun hz => ?_, fun hs0 hall => ?_⟩
  · rw [olookup_setScaled_self, if_pos hz]
    norm_num
  · have hvar : varianceRaw (rawsFor students exam.id) = 0 :=
      varianceRaw_all_eq _ raw hne hall
    rw [olookup_setScaled_self, hvar, if_pos hs0]
    norm_num

/-- Witness for C2 on a cohort whose raw marks are all 50, with scaling value
60: the σ = 0 branch applies and yields 30 = 60/2. -/
theorem bellCurve_zscore_witness :
    studentsB[0]? = some ⟨"S1", "Ann", [("E1", 50)], none, none⟩ ∧
    sqrtZ 0 = 0 ∧
    (∀ x ∈ rawsFor studentsB examB.id, x = 50) ∧
    (∃ s', (applyBellCurveScaling sqrtZ studentsB examB)[0]? = some s' ∧
      olookup s'.scaledMarks examB.id =
        some (examB.scalingValue / 2 +
          (if sqrtZ (varianceRaw (rawsFor studentsB examB.id)) = 0 then 0
           else (50 - meanRaw (rawsFor studentsB examB.id)) /
             sqrtZ (varianceRaw (rawsFor studentsB examB.id))) *
            (examB.scalingValue / 6)) ∧
      (sqrtZ (varianceRaw (rawsFor studentsB examB.id)) = 0 →
        olookup s'.scaledMarks examB.id = some (examB.scalingValue / 2)) ∧
      (sqrtZ 0 = 0 → (∀ x ∈ rawsFor studentsB examB.id, x = 50) →
        olookup s'.scaledMarks examB.id = some (examB.scalingValue / 2))) :=
  ⟨by decide, rfl, by decide,
    bellCurve_zscore sqrtZ studentsB examB 0
      ⟨"S1", "Ann", [("E1", 50)], none, none⟩ 50 (by decide) (by decide)⟩

theorem applyRounding_some (students : List Student) (examId : String)
    (flag : Bool) (i : Nat) (s : Student) (v : ℚ)
    (hi : students[i]? = some s)
    (hv : olookup s.scaledMarks examId = some v) :
    (applyRounding students examId flag)[i]? =
      some ⟨s.id, s.name, s.marks, s.scaledMarks,
        some (setEntry (s.roundedMarks.getD []) examId
          ((roundHalfAway v : ℤ) : ℚ))⟩ := by
  unfold applyRounding
  rw [List.getElem?_map, hi]
  simp [hv]

theorem applyRounding_none (students : List Student) (examId : String)
    (flag : Bool) (i : Nat) (s : Student)
    (hi : students[i]? = some s)
    (hv : olookup s.scaledMarks examId = none) :
    (applyRounding students examId flag)[i]? = some s := by
  unfold applyRounding
  rw [List.getElem?_map, hi]
  simp [hv]

theorem roundHalfAway_intCast (n : ℤ) : roundHalfAway ((n : ℤ) : ℚ) = n := by
  by_cases hn : 0 ≤ ((n : ℤ) : ℚ)
  · rw [roundHalfAway, if_pos hn, add_comm, Int.floor_add_int]
    norm_num
  · rw [roundHalfAway, if_neg hn]
    have hc : (-((n : ℤ) : ℚ)) = (((-n : ℤ) : ℤ) : ℚ) := by push_cast; ring
    rw [hc, add_comm, Int.floor_add_int]
    norm_num

/-- C6: the rounding pass gives every student holding a scaled mark for
`examId` a rounded mark equal to that scaled mark rounded half away from zero
(`12.4 → 12`, `12.5 → 13`, `12.6 → 13`, `-0.5 → -1`, integers map to
themselves), keeping all other fields, and returns every student without a
scaled mark for `examId` unchanged, creating no rounded entry. -/
theorem round_halfAway_spec (students : List Student) (examId : String)
    (useScaledSource : Bool) (i : Nat) (s : Student)
    (hi : students[i]? = some s) :
    ((∀ v, olookup s.scaledMarks examId = some v →
        ∃ s', (applyRounding students examId useScaledSource)[i]? = some s' ∧
          olookup s'.roundedMarks examId = some ((roundHalfAway v : ℤ) : ℚ) ∧
          s'.id = s.id ∧ s'.name = s.name ∧ s'.marks = s.marks ∧
          s'.scaledMarks = s.scaledMarks) ∧
      (olookup s.scaledMarks examId = none →
        (applyRounding students examId useScaledSource)[i]? = some s)) ∧
    roundHalfAway (124 / 10) = 12 ∧ roundHalfAway (25 / 2) = 13 ∧
    roundHalfAway (63 / 5) = 13 ∧ roundHalfAway (-1 / 2) = -1 ∧
    (∀ n : ℤ, roundHalfAway ((n : ℤ) : ℚ) = n) := by
  refine ⟨⟨fun v hv => ?_, fun hv =>
      applyRounding_none students examId useScaledSource i s hi hv⟩,
    ?_, ?_, ?_, ?_, roundHalfAway_intCast⟩
  · refine ⟨⟨s.id, s.name, s.marks, s.scaledMarks,
      some (setEntry (s.roundedMarks.getD []) examId
        ((roundHalfAway v : ℤ) : ℚ))⟩,
      applyRounding_some students examId useScaledSource i s v hi hv,
      ?_, rfl, rfl, rfl, rfl⟩
    simp [olookup, lookupM_setEntry_self]
  · rw [roundHalfAway, if_pos (by norm_num)]
    norm_num [Int.floor_eq_iff]
  · rw [roundHalfAway, if_pos (by norm_num)]
    norm_num [Int.floor_eq_iff]
  · rw [roundHalfAway, if_pos (by norm_num)]
    norm_num [Int.floor_eq_iff]
  · rw [roundHalfAway, if_neg (by norm_num)]
    norm_num [Int.floor_eq_iff]

/-- Witness for C6 on a roster with one scaled mark of 7 for exam `E1` and
one student without scaled marks. -/
theorem round_halfAway_spec_witness :
    studentsD[0]? = some ⟨"S1", "Joy", [("E1", 80)], some [("E1", 7)], none⟩ ∧
    (((∀ v,
        olookup (Student.mk "S1" "Joy" [("E1", 80)] (some [("E1", 7)])
          none).scaledMarks "E1" = some v →
        ∃ s', (applyRounding studentsD "E1" true)[0]? = some s' ∧
          olookup s'.roundedMarks "E1" = some ((roundHalfAway v : ℤ) : ℚ) ∧
          s'.id = "S1" ∧ s'.name = "Joy" ∧ s'.marks = [("E1", 80)] ∧
          s'.scaledMarks = some [("E1", 7)]) ∧
      (olookup (Student.mk "S1" "Joy" [("E1", 80)] (some [("E1", 7)])
          none).scaledMarks "E1" = none →
        (applyRounding studentsD "E1" true)[0]? =
          some ⟨"S1", "Joy", [("E1", 80)], some [("E1", 7)], none⟩)) ∧
    roundHalfAway (124 / 10) = 12 ∧ roundHalfAway (25 / 2) = 13 ∧
    roundHalfAway (63 / 5) = 13 ∧ roundHalfAway (-1 / 2) = -1 ∧
    (∀ n : ℤ, roundHalfAway ((n : ℤ) : ℚ) = n)) :=
  ⟨by decide,
    round_halfAway_spec studentsD "E1" true 0
      ⟨"S1", "Joy", [("E1", 80)], some [("E1", 7)], none⟩ (by decide)⟩

theorem isEmpty_true_of_eq_nil {l : List ℚ} (h : l = []) : l.isEmpty = true := by
  rw [h]
  rfl

/-- C7: frame conditions — each scaling pass for exam `A` keeps the roster
length, never alters ids, names, raw marks or rounded marks, never touches a
scaled entry keyed by a different exam, and returns every student without a
raw mark for `A` unchanged; linear normalization obeys the same frame
whenever it returns a roster. -/
theorem scaling_frame (students : List Student) (exam : Exam) (sqrt : ℚ → ℚ) :
    FramePreserved students (applyBellCurveScaling sqrt students exam)
      exam.id ∧
    FramePreserved students (applyMinMaxNormalization students exam) exam.id ∧
    FramePreserved students (applyPercentileScaling students exam) exam.id ∧
    ∀ result : List Student,
      applyLinearNormalization students exam = Except.ok result →
        FramePreserved students result exam.id := by
  refine ⟨?_, ?_, ?_, ?_⟩
  · by_cases hne : rawsFor students exam.id = []
    · have : applyBellCurveScaling sqrt students exam = students := by
        simp only [applyBellCurveScaling]
        rw [if_pos (isEmpty_true_of_eq_nil hne)]
      rw [this]
      exact framePreserved_refl students exam.id
    · rw [applyBell_eq sqrt students exam hne]
      exact framePreserved_applyWith _ students exam.id
  · by_cases hne : rawsFor students exam.id = []
    · have : applyMinMaxNormalization students exam = students := by
        simp only [applyMinMaxNormalization]
        rw [if_pos (isEmpty_true_of_eq_nil hne)]
      rw [this]
      exact framePreserved_refl students exam.id
    · by_cases hcase : maxRaw (rawsFor students exam.id) =
          minRaw (rawsFor students exam.id)
      · rw [applyMinMax_eq_const students exam hne hcase]
        exact framePreserved_applyWith _ students exam.id
      · rw [applyMinMax_eq_formula students exam hne hcase]
        exact framePreserved_applyWith _ students exam.id
  · by_cases hne : rawsFor students exam.id = []
    · have : applyPercentileScaling students exam = students := by
        simp only [applyPercentileScaling]
        rw [if_pos (isEmpty_true_of_eq_nil hne)]
      rw [this]
      exact framePreserved_refl students exam.id
    · by_cases hlen : (rawsFor students exam.id).length = 1
      · rw [applyPercentile_eq_single students exam hne hlen]
        exact framePreserved_applyWith _ students exam.id
      · rw [applyPercentile_eq_formula students exam hne hlen]
        exact framePreserved_applyWith _ students exam.id
  · intro result hres
    unfold applyLinearNormalization at hres
    by_cases htm : exam.totalMarks = 0
    · rw [if_pos htm] at hres
      exact Except.noConfusion hres
    · rw [if_neg htm] at hres
      have hr : applyWith
          (fun raw => raw / exam.totalMarks * exam.scalingValue) students
          exam.id = result := by
        injection hres
      rw [← hr]
      exact framePreserved_applyWith _ students exam.id

/-- Witness for C7: the frame conditions at the spec's worked example, for
min-max normalization. -/
theorem scaling_frame_witness :
    FramePreserved studentsA (applyMinMaxNormalization studentsA examA)
      examA.id :=
  (scaling_frame studentsA examA sqrtZ).2.1

/-- C4 (amended): percentile scaling sends every holder of the highest raw
mark to `scalingValue`; when the cohort has at least two members and exactly
one member holds the lowest raw mark, that member receives `0`; and a cohort
of one receives `scalingValue`.  (With a tied lowest raw mark the tied
students share the rank of the first occurrence in descending order and do
not receive `0`.) -/
theorem percentile_extremes (students : List Student) (exam : Exam)
    (i : Nat) (s : Student) (raw : ℚ)
    (hi : students[i]? = some s)
    (hraw : lookupM s.marks exam.id = some raw) :
    ∃ s', (applyPercentileScaling students exam)[i]? = some s' ∧
      ((rawsFor students exam.id).length = 1 →
        olookup s'.scaledMarks exam.id = some exam.scalingValue) ∧
      (raw = maxRaw (rawsFor students exam.id) →
        olookup s'.scaledMarks exam.id = some exam.scalingValue) ∧
      (2 ≤ (rawsFor students exam.id).length →
        (rawsFor students exam.id).countP
          (fun x => decide (x = minRaw (rawsFor students exam.id))) = 1 →
        raw = minRaw (rawsFor students exam.id) →
        olookup s'.scaledMarks exam.id = some 0) := by
  have hne := rawsFor_ne_nil students exam.id i s raw hi hraw
  by_cases hlen : (rawsFor students exam.id).length = 1
  · rw [applyPercentile_eq_single students exam hne hlen]
    refine ⟨setScaled s exam.id exam.scalingValue,
      applyWith_eligible _ students exam.id i s raw hi hraw,
      fun _ => olookup_setScaled_self s exam.id _,
      fun _ => olookup_setScaled_self s exam.id _,
      fun h2 _ _ => ?_⟩
    rw [hlen] at h2
    exact absurd h2 (by omega)
  · have h0 : (rawsFor students exam.id).length ≠ 0 :=
      fun hc => hne (List.length_eq_zero.mp hc)
    have hn2 : 2 ≤ (rawsFor students exam.id).length := by omega
    have hne1 : ((rawsFor students exam.id).length : ℚ) - 1 ≠ 0 := by
      have h2 : (2 : ℚ) ≤ ((rawsFor students exam.id).length : ℚ) := by
        exact_mod_cast hn2
      intro hc
      have : ((rawsFor students exam.id).length : ℚ) = 1 := by linarith
      linarith
    rw [applyPercentile_eq_formula students exam hne hlen]
    refine ⟨setScaled s exam.id _,
      applyWith_eligible _ students exam.id i s raw hi hraw,
      fun h1 => absurd h1 hlen, fun hmax => ?_, fun _ hcnt hmin => ?_⟩
    · rw [olookup_setScaled_self, hmax, rankOf_max _ hne]
      simp [div_self hne1]
    · rw [olookup_setScaled_self, hmin, rankOf_unique_min _ hne hcnt]
      have hcast : (((rawsFor students exam.id).length - 1 : Nat) : ℚ) =
          ((rawsFor students exam.id).length : ℚ) - 1 := by
        have h1 : 1 ≤ (rawsFor students exam.id).length := by omega
        push_cast [h1]
        ring
      rw [hcast]
      simp

/-- Witness for C4 (amended) at the spec's worked example, for the holder of
the highest raw mark 100. -/
theorem percentile_extremes_witness :
    studentsA[2]? = some ⟨"S3", "Carol", [("E1", 100)], none, none⟩ ∧
    lookupM (Student.mk "S3" "Carol" [("E1", 100)] none none).marks examA.id =
      some 100 ∧
    (∃ s', (applyPercentileScaling studentsA examA)[2]? = some s' ∧
      ((rawsFor studentsA examA.id).length = 1 →
        olookup s'.scaledMarks examA.id = some examA.scalingValue) ∧
      (100 = maxRaw (rawsFor studentsA examA.id) →
        olookup s'.scaledMarks examA.id = some examA.scalingValue) ∧
      (2 ≤ (rawsFor studentsA examA.id).length →
        (rawsFor studentsA examA.id).countP
          (fun x => decide (x = minRaw (rawsFor studentsA examA.id))) = 1 →
        100 = minRaw (rawsFor studentsA examA.id) →
        olookup s'.scaledMarks examA.id = some 0)) :=
  ⟨by decide, by decide,
    percentile_extremes studentsA examA 2
      ⟨"S3", "Carol", [("E1", 100)], none, none⟩ 100 (by decide) (by decide)⟩

/-- C4 counterexample: with raw marks 100, 50, 50 and scaling value 50, the
students tied at the lowest raw mark 50 receive scaled mark 25, not 0, because
ties share the rank of the first occurrence in descending sort order. -/
theorem percentile_tied_min_counterexample :
    minRaw (rawsFor studentsC examA.id) = 50 ∧
    ((applyPercentileScaling studentsC examA)[1]?.bind
      (fun s' => olookup s'.scaledMarks examA.id)) = some 25 ∧
    (25 : ℚ) ≠ 0 := by
  have hraws : rawsFor studentsC examA.id = [100, 50, 50] := by decide
  have hne : rawsFor studentsC examA.id ≠ [] := by
    rw [hraws]
    simp
  have hlen : (rawsFor studentsC examA.id).length ≠ 1 := by
    rw [hraws]
    decide
  have hlen3 : (rawsFor studentsC examA.id).length = 3 := by
    rw [hraws]
    rfl
  have hrank : rankOf (rawsFor studentsC examA.id) 50 = 1 := by
    rw [hraws]
    decide
  have hi : studentsC[1]? = some ⟨"S2", "Eve", [("E1", 50)], none, none⟩ := by
    decide
  have hraw : lookupM (Student.mk "S2" "Eve" [("E1", 50)] none none).marks
      examA.id = some 50 := by decide
  refine ⟨by decide, ?_, by norm_num⟩
  rw [applyPercentile_eq_formula studentsC examA hne hlen,
    applyWith_eligible _ studentsC examA.id 1 _ 50 hi hraw, hlen3, hrank]
  simp only [Option.some_bind, olookup_setScaled_self, Option.some.injEq]
  norm_num [examA]

/-- C8 (amended): `generateCSV` serializes the engine's outputs — every
defined raw, scaled or rounded value of a listed student and exam appears as
a comma-preceded cell of the produced CSV — while `exportToJSON` serializes
only id, name and raw marks, stripping every `scaledMarks` and `roundedMarks`
entry from the JSON payload. -/
theorem export_outputs (render : ℚ → String) (students : List Student)
    (exams : List Exam) (data : MarksData) :
    ((exportToJSON data).students.length = data.students.length ∧
      ∀ (i : Nat) (s : Student), data.students[i]? = some s →
        (exportToJSON data).students[i]? =
          some ⟨s.id, s.name, s.marks, none, none⟩) ∧
    ∀ s ∈ students, ∀ e ∈ exams,
      (∀ v, lookupM s.marks e.id = some v →
        strSub ("," ++ render v) (generateCSV render students exams)) ∧
      (∀ v, olookup s.scaledMarks e.id = some v →
        strSub ("," ++ render v) (generateCSV render students exams)) ∧
      (∀ v, olookup s.roundedMarks e.id = some v →
        strSub ("," ++ render v) (generateCSV render students exams)) := by
  refine ⟨⟨by simp [exportToJSON], fun i s hi => ?_⟩,
    fun s hs e he => ⟨fun v hv => ?_, fun v hv => ?_, fun v hv => ?_⟩⟩
  · simp only [exportToJSON]
    rw [List.getElem?_map, hi]
    rfl
  · exact cell_infix_generateCSV render students exams s e _ hs he
      (rowChunk_raw_sub render s e v hv)
  · exact cell_infix_generateCSV render students exams s e _ hs he
      (rowChunk_scaled_sub render s e v hv)
  · exact cell_infix_generateCSV render students exams s e _ hs he
      (rowChunk_rounded_sub render s e v hv)

/-- Witness for C8 (amended): the scaled mark 7 of the first student of
`studentsD` appears in the generated CSV, and the JSON payload of `dataE`
keeps id, name and raw marks only. -/
theorem export_outputs_witness :
    (⟨"S1", "Joy", [("E1", 80)], some [("E1", 7)], none⟩ : Student) ∈
      studentsD ∧
    examA ∈ [examA] ∧
    olookup (Student.mk "S1" "Joy" [("E1", 80)] (some [("E1", 7)])
      none).scaledMarks examA.id = some 7 ∧
    dataE.students[0]? =
      some ⟨"S1", "Ivy", [("E1", 80)], some [("E1", 40)], some [("E1", 40)]⟩ ∧
    strSub ("," ++ renderX 7) (generateCSV renderX studentsD [examA]) ∧
    (exportToJSON dataE).students[0]? =
      some ⟨"S1", "Ivy", [("E1", 80)], none, none⟩ :=
  ⟨by decide, by decide, by decide, by decide,
    ((export_outputs renderX studentsD [examA] dataE).2
      ⟨"S1", "Joy", [("E1", 80)], some [("E1", 7)], none⟩ (by decide) examA
      (by decide)).2.1 7 (by decide),
    (export_outputs renderX studentsD [examA] dataE).1.2 0
      ⟨"S1", "Ivy", [("E1", 80)], some [("E1", 40)], some [("E1", 40)]⟩
      (by decide)⟩

/-- C8 counterexample: `dataE` stores a scaled mark 40 and a rounded mark 40
for its only student, yet the JSON export payload contains neither — the
claim that `exportToJSON` includes `scaledMarks` and `roundedMarks` entries
fails. -/
theorem export_json_strips_counterexample :
    (dataE.students.map (fun s => olookup s.scaledMarks "E1")) = [some 40] ∧
    (dataE.students.map (fun s => olookup s.roundedMarks "E1")) = [some 40] ∧
    ((exportToJSON dataE).students.map
      (fun s => olookup s.scaledMarks "E1")) = [none] ∧
    ((exportToJSON dataE).students.map
      (fun s => olookup s.roundedMarks "E1")) = [none] := by
  refine ⟨by decide, by decide, by decide, by decide⟩

theorem parseLine_shape (line : String) (st : Student)
    (h : parseLine line = some st) :
    ∃ a b rest,
      (jsSplit (jsTrim line) ',').map (fun p => stripQuotes (jsTrim p)) =
        a :: b :: rest ∧ a ≠ "" ∧ b ≠ "" ∧ jsTrim line ≠ "" ∧
      st = ⟨a, b, [], none, none⟩ := by
  simp only [parseLine] at h
  split at h
  · exact Option.noConfusion h
  · rename_i hblank
    split at h
    · rename_i a b rest heq
      split at h
      · rename_i hab
        injection h with h'
        exact ⟨a, b, rest, heq, hab.1, hab.2, hblank, h'.symm⟩
      · exact Option.noConfusion h
    · exact Option.noConfusion h

theorem parseLine_accepts (line : String) (a b : String) (rest : List String)
    (hblank : jsTrim line ≠ "")
    (hm : (jsSplit (jsTrim line) ',').map (fun p => stripQuotes (jsTrim p)) =
      a :: b :: rest)
    (ha : a ≠ "") (hbne : b ≠ "") :
    parseLine line = some ⟨a, b, [], none, none⟩ := by
  unfold parseLine
  rw [if_neg hblank, hm]
  show (if a ≠ "" ∧ b ≠ "" then some (⟨a, b, [], none, none⟩ : Student)
    else none) = some ⟨a, b, [], none, none⟩
  rw [if_pos ⟨ha, hbne⟩]

/-- C9: `parseCSV` accepts exactly one student per line of the trimmed input
that is non-blank after trimming and whose comma-split — after per-part
trimming and quote-stripping — yields at least two parts with non-empty first
and second fields; the accepted line contributes the first part as id and the
second as name, with an empty marks map and no scaled or rounded marks, and
every blank or malformed line is skipped. -/
theorem parseCSV_spec (csvText : String) :
    parseCSV csvText =
      (jsSplit (jsTrim csvText) '\n').filterMap parseLine ∧
    (∀ st ∈ parseCSV csvText,
      st.marks = [] ∧ st.scaledMarks = none ∧ st.roundedMarks = none) ∧
    (∀ line : String,
      (∀ st, parseLine line = some st →
        ∃ a b rest,
          (jsSplit (jsTrim line) ',').map (fun p => stripQuotes (jsTrim p)) =
            a :: b :: rest ∧ a ≠ "" ∧ b ≠ "" ∧ jsTrim line ≠ "" ∧
          st = ⟨a, b, [], none, none⟩) ∧
      (jsTrim line ≠ "" →
        ∀ a b rest,
          (jsSplit (jsTrim line) ',').map (fun p => stripQuotes (jsTrim p)) =
            a :: b :: rest → a ≠ "" → b ≠ "" →
          parseLine line = some ⟨a, b, [], none, none⟩)) := by
  have h1 : parseCSV csvText =
      (jsSplit (jsTrim csvText) '\n').filterMap parseLine := by
    unfold parseCSV
    exact (foldl_pushParsed (jsSplit (jsTrim csvText) '\n') []).trans
      (List.nil_append _)
  refine ⟨h1, fun st hst => ?_, fun line =>
    ⟨fun st h => parseLine_shape line st h,
     fun hblank a b rest hm ha hbne =>
       parseLine_accepts line a b rest hblank hm ha hbne⟩⟩
  rw [h1] at hst
  rcases List.mem_filterMap.mp hst with ⟨line, _, hline⟩
  rcases parseLine_shape line st hline with ⟨a, b, rest, _, _, _, _, hshape⟩
  rw [hshape]
  exact ⟨rfl, rfl, rfl⟩

/-- Witness for C9 on a mixed input: a valid line, a blank line, a malformed
line, and a quoted valid line with an extra field. -/
theorem parseCSV_spec_witness :
    (⟨"S1", "Alice", [], none, none⟩ : Student) ∈ parseCSV csvT0 ∧
    parseCSV csvT0 =
      [⟨"S1", "Alice", [], none, none⟩, ⟨"S2", "Bea", [], none, none⟩] ∧
    parseCSV csvT0 = (jsSplit (jsTrim csvT0) '\n').filterMap parseLine ∧
    ((⟨"S1", "Alice", [], none, none⟩ : Student).marks = [] ∧
      (⟨"S1", "Alice", [], none, none⟩ : Student).scaledMarks = none ∧
      (⟨"S1", "Alice", [], none, none⟩ : Student).roundedMarks = none) :=
  ⟨by decide, by decide, (parseCSV_spec csvT0).1,
    (parseCSV_spec csvT0).2.1 ⟨"S1", "Alice", [], none, none⟩ (by decide)⟩

/-- C10: `loadFromLocalStorage` is total and never propagates a parse error:
with no stored value it returns `none`; when `JSON.parse` throws on the
stored string it returns `none`; and in the browser environment a stored
string that parses successfully is returned parsed (`JSON.parse` rejects the
empty string, which the stored-value truthiness check also filters out). -/
theorem loadFromLocalStorage_total (parse : String → Except String MarksData) :
    (∀ w : Bool, loadFromLocalStorage w parse none = none) ∧
    (∀ (w : Bool) (str e : String), parse str = Except.error e →
      loadFromLocalStorage w parse (some str) = none) ∧
    (∀ (str : String) (v : MarksData),
      (∀ v', parse "" ≠ Except.ok v') → parse str = Except.ok v →
      loadFromLocalStorage true parse (some str) = some v) := by
  refine ⟨fun w => ?_, fun w str e he => ?_, fun str v hemp hok => ?_⟩
  · cases w <;> rfl
  · cases w
    · rfl
    · by_cases hs : str = ""
      · simp [loadFromLocalStorage, hs]
      · simp [loadFromLocalStorage, hs, he]
  · have hs : str ≠ "" := by
      intro hc
      rw [hc] at hok
      exact hemp v hok
    simp [loadFromLocalStorage, hs, hok]

/-- Witness for C10 with a concrete parser accepting exactly the string
`"good"`. -/
theorem loadFromLocalStorage_total_witness :
    parseJ "oops" = Except.error "bad" ∧
    parseJ "good" = Except.ok ⟨[], [examA]⟩ ∧
    (∀ w : Bool, loadFromLocalStorage w parseJ none = none) ∧
    loadFromLocalStorage true parseJ (some "oops") = none ∧
    loadFromLocalStorage true parseJ (some "good") = some ⟨[], [examA]⟩ :=
  ⟨by simp [parseJ], by simp [parseJ], (loadFromLocalStorage_total parseJ).1,
    (loadFromLocalStorage_total parseJ).2.1 true "oops" "bad"
      (by simp [parseJ]),
    (loadFromLocalStorage_total parseJ).2.2 "good" ⟨[], [examA]⟩
      (fun v' h => by simp [parseJ] at h) (by simp [parseJ])⟩
